import Mathlib

/-!
Formal model of the `pos_simulator_python` Proof-of-Stake simulator and of the
`analysis_chains` metric functions, together with theorems about the consensus
selectors, the peer-churn rules, the per-epoch metrics and the simulation loop.

Numeric values are modelled as real numbers.  The global random source of the
Python code (`random.random()` and `random.randint`) is modelled as an explicit
state `Rng` holding the sequence of draws still to come: a list of real draws
for `random.random()` and a list of naturals for `random.randint(0, n-1)`
(interpreted modulo `n`, so that every draw denotes a valid position).  Reading
past the end of a stream yields the default draw `1` (resp. `0`); the
recursive join loop of `try_to_join` stops when its float stream is exhausted,
which makes the (probabilistically terminating) Python recursion a total
function over finite draw sequences.
-/

/-- Explicit random source: the remaining `random.random()` draws and the
remaining `random.randint` draws. -/
structure Rng where
  floats : List ℝ
  ints : List ℕ

/-- One `random.random()` draw. -/
def nextFloat (rng : Rng) : ℝ × Rng :=
  match rng.floats with
  | [] => (1, rng)
  | x :: r => (x, { rng with floats := r })

/-- One raw `random.randint` draw. -/
def nextInt (rng : Rng) : ℕ × Rng :=
  match rng.ints with
  | [] => (0, rng)
  | x :: r => (x, { rng with ints := r })

/-- `random.randint(0, n - 1)`: a uniformly random valid position below `n`. -/
def randint (n : ℕ) (rng : Rng) : ℕ × Rng :=
  match nextInt rng with
  | (u, rng') => (u % n, rng')

/-- Running cumulative sums starting from `acc` (`np.cumsum`). -/
def cumsumFrom (acc : ℝ) : List ℝ → List ℝ
  | [] => []
  | x :: rest => (acc + x) :: cumsumFrom (acc + x) rest

/-- `np.cumsum`. -/
def cumsum (l : List ℝ) : List ℝ :=
  cumsumFrom 0 l

/-- Index of the first entry `≥ r` of a list, if any (the selection scan
`for i, cum_prob in enumerate(...): if cum_prob >= random_number: return i`). -/
noncomputable def firstGE : List ℝ → ℝ → Option ℕ
  | [], _ => none
  | c :: rest, r => if c ≥ r then some 0 else (firstGE rest r).map (· + 1)

/-- `Distribution` enum of `parameters.py`. -/
inductive Distribution
  | UNIFORM
  | GINI
  | RANDOM
deriving DecidableEq

/-- `PoS` enum of `parameters.py`: the 7 consensus variants. -/
inductive PoS
  | WEIGHTED
  | OPPOSITE_WEIGHTED
  | GINI_STABILIZED
  | LOG_WEIGHTED
  | DESW
  | SRSW_WEIGHTED
  | RANDOM
deriving DecidableEq

/-- `NewEntry` enum of `parameters.py`: stake policy for a joining peer. -/
inductive NewEntry
  | NEW_MAX
  | NEW_MIN
  | NEW_RANDOM
  | NEW_AVERAGE
deriving DecidableEq

/-- `SType` enum of `parameters.py`: smoothing shape for GiniStabilized. -/
inductive SType
  | CONSTANT
  | LINEAR
  | QUADRATIC
  | SQRT
deriving DecidableEq

/-- The `Parameters` dataclass of `parameters.py`. -/
structure Parameters where
  n_epochs : ℕ
  proof_of_stake : PoS
  initial_stake_volume : ℝ
  initial_distribution : Distribution
  initial_gini : ℝ
  n_peers : ℤ
  n_corrupted : ℤ
  p_fail : ℝ
  p_join : ℝ
  p_leave : ℝ
  join_amount : NewEntry
  penalty_percentage : ℝ
  θ : ℝ
  s_type : SType
  k : ℝ
  reward : ℝ
  scheduled_joins : Option (List (ℕ × ℝ))

/-- The validation performed by `Parameters.__post_init__`: a parameter set is
valid iff construction succeeds without raising. -/
def Parameters.Valid (p : Parameters) : Prop :=
  0 < p.n_epochs ∧
  0 ≤ p.initial_gini ∧ p.initial_gini ≤ 1 ∧
  0 < p.n_peers ∧
  0 ≤ p.n_corrupted ∧
  0 ≤ p.p_fail ∧ p.p_fail ≤ 1 ∧
  0 ≤ p.p_join ∧ p.p_join ≤ 1 ∧
  0 ≤ p.p_leave ∧ p.p_leave ≤ 1 ∧
  0 ≤ p.penalty_percentage ∧ p.penalty_percentage ≤ 1 ∧
  0 ≤ p.θ ∧ p.θ ≤ 1 ∧
  0 < p.k ∧
  0 < p.reward

/-- `utils.gini`: Gini coefficient via the closed-form Lorenz-curve sum. -/
noncomputable def gini (data : List ℝ) : ℝ :=
  match data with
  | [] => 0
  | d0 :: drest =>
    let data := d0 :: drest
    let n := data.length
    let total := data.sum
    if total = 0 then 0
    else
      let sorted_data := data.insertionSort (· ≤ ·)
      let lorenz_curve :=
        (List.zip (cumsum sorted_data) sorted_data).map
          (fun cs => cs.1 / total - 0.5 * (cs.2 / total))
      1 - 2 * lorenz_curve.sum / n

/-- The accumulation scan of `utils.nakamoto_coefficient` fused with its
fallback: returns `i + 1` for the first (0-based) position `i` at which the
running sum reaches `target`, and the length of the list when it never does. -/
noncomputable def ncLoop : List ℝ → ℝ → ℝ → ℕ
  | [], _, _ => 0
  | v :: rest, acc, target =>
    if acc + v ≥ target then 1 else ncLoop rest (acc + v) target + 1

/-- `utils.nakamoto_coefficient`. -/
noncomputable def nakamoto_coefficient (data : List ℝ) (threshold : ℝ) : ℕ :=
  match data with
  | [] => 0
  | d0 :: drest =>
    let data := d0 :: drest
    let total := data.sum
    if total = 0 then 0
    else ncLoop (data.insertionSort (· ≥ ·)) 0 (total * threshold)

/-- `utils.HHI_coefficient`: sum of squared shares over all entries. -/
noncomputable def HHI_coefficient (data : List ℝ) : ℝ :=
  match data with
  | [] => 0
  | d0 :: drest =>
    let data := d0 :: drest
    let total := data.sum
    if total = 0 then 0
    else ((data.map (fun value => (value / total) ^ 2)).sum)

/-- `analysis_chains/analysis/coefficient.py`, `calculate_hhi_coefficient`:
drops non-positive entries, then sums squared shares, optionally rescaling by
`(HHI - 1/n) / (1 - 1/n)` when more than one entry remains. -/
noncomputable def calculate_hhi_coefficient (data : List ℝ) (normalize : Bool) : ℝ :=
  let weights := data.filter (fun w => decide (0 < w))
  let total_weight := weights.sum
  if total_weight = 0 then 0
  else
    let hhi_index := (weights.map (fun w => (w / total_weight) ^ 2)).sum
    if normalize ∧ 1 < weights.length then
      (hhi_index - 1 / (weights.length : ℝ)) / (1 - 1 / (weights.length : ℝ))
    else hhi_index

/-- Modelled from the spec (§4.3, MetricsEngine HHI), for comparison with the
code: "drop non-positive/NaN entries; if remaining total is 0 return 0; else
Σ(share_i²) where share_i = stake_i/total. If normalize and count>1, rescale
via (HHI − 1/n)/(1 − 1/n)". -/
noncomputable def hhi_spec_description (data : List ℝ) (normalize : Bool) : ℝ :=
  let kept := data.filter (fun w => decide (0 < w))
  let total := kept.sum
  if total = 0 then 0
  else
    let hhi := (kept.map (fun w => (w / total) ^ 2)).sum
    if normalize ∧ 1 < kept.length then
      (hhi - 1 / (kept.length : ℝ)) / (1 - 1 / (kept.length : ℝ))
    else hhi

/-- `utils.lerp`. -/
noncomputable def lerp (a b l : ℝ) : ℝ :=
  (1 - l) * a + l * b

/-- `utils.lerp_vector` (entrywise `lerp`; the source raises on length
mismatch, which never occurs at its single call site). -/
noncomputable def lerp_vector (a b : List ℝ) (l : ℝ) : List ℝ :=
  (List.zip a b).map (fun ab => (1 - l) * ab.1 + l * ab.2)

/-- `utils.d`: target direction for GiniStabilized interpolation. -/
noncomputable def d (g θ : ℝ) : ℝ :=
  if g > θ then 0.5 else 1.5

/-- `utils.weighted_consensus`: inverse-CDF selection with weights equal to
the stakes; uniform fallback on zero total; error on an empty vector. -/
noncomputable def weighted_consensus (peers : List ℝ) (rng : Rng) :
    Except String (ℕ × Rng) :=
  match peers with
  | [] => .error "Peers list cannot be empty"
  | p0 :: prest =>
    let peers := p0 :: prest
    let total := peers.sum
    if total = 0 then .ok (randint peers.length rng)
    else
      let cumulative_probabilities := cumsum (peers.map (fun x => x / total))
      let (random_number, rng') := nextFloat rng
      .ok ((firstGE cumulative_probabilities random_number).getD (peers.length - 1), rng')

/-- `utils.opposite_weighted_consensus`: weights `|max(peers) - peer|`. -/
noncomputable def opposite_weighted_consensus (peers : List ℝ) (rng : Rng) :
    Except String (ℕ × Rng) :=
  match peers with
  | [] => .error "Peers list cannot be empty"
  | p0 :: prest =>
    let peers := p0 :: prest
    let max_peer := (peers.max?).getD 0
    let opposite_peers := peers.map (fun peer => |max_peer - peer|)
    let total := opposite_peers.sum
    if total = 0 then .ok (randint peers.length rng)
    else
      let cumulative_probabilities := cumsum (opposite_peers.map (fun x => x / total))
      let (random_number, rng') := nextFloat rng
      .ok ((firstGE cumulative_probabilities random_number).getD (peers.length - 1), rng')

/-- `utils.gini_stabilized_consensus`: interpolates between the weighted and
opposite-weighted cumulative distributions by the external state `t`. -/
noncomputable def gini_stabilized_consensus (peers : List ℝ) (t : ℝ) (rng : Rng) :
    Except String (ℕ × Rng) :=
  if t = -1 then .error "Cannot launch GiniStabilized with t = -1"
  else
    match peers with
    | [] => .error "Peers list cannot be empty"
    | p0 :: prest =>
      let peers := p0 :: prest
      let total := peers.sum
      if total = 0 then .ok (randint peers.length rng)
      else
        let weighted := cumsum (peers.map (fun x => x / total))
        let max_peer := (peers.max?).getD 0
        let processed_peers := peers.map (fun peer => |max_peer - peer|)
        let total_processed := processed_peers.sum
        let opposite_weighted :=
          if total_processed = 0 then
            cumsum (List.replicate peers.length ((1 : ℝ) / peers.length))
          else cumsum (processed_peers.map (fun x => x / total_processed))
        let cumulative_probabilities := lerp_vector opposite_weighted weighted t
        let (random_number, rng') := nextFloat rng
        .ok ((firstGE cumulative_probabilities random_number).getD (peers.length - 1), rng')

/-- The dynamic exponent of `utils.desw_consensus`:
`p_dynamic = max(0.2, min(0.8, 1 - gini(peers)))`. -/
noncomputable def desw_p (peers : List ℝ) : ℝ :=
  max 0.2 (min 0.8 (1 - gini peers))

/-- `utils.desw_consensus`: power-law weights `stake ^ p` with the dynamic
exponent `desw_p` (no zero-weight guard after the zero-total-stake guard,
mirroring the source). -/
noncomputable def desw_consensus (peers : List ℝ) (rng : Rng) :
    Except String (ℕ × Rng) :=
  match peers with
  | [] => .error "Peers list cannot be empty"
  | p0 :: prest =>
    let peers := p0 :: prest
    let total := peers.sum
    if total = 0 then .ok (randint peers.length rng)
    else
      let p_dynamic := desw_p peers
      let power_weights := peers.map (fun stake => stake ^ p_dynamic)
      let total_weight := power_weights.sum
      let cumulative_probabilities := cumsum (power_weights.map (fun x => x / total_weight))
      let (random_number, rng') := nextFloat rng
      .ok ((firstGE cumulative_probabilities random_number).getD (peers.length - 1), rng')

/-- `utils.srsw_weighted_consensus`: weights `√stake`. -/
noncomputable def srsw_weighted_consensus (peers : List ℝ) (rng : Rng) :
    Except String (ℕ × Rng) :=
  match peers with
  | [] => .error "Peers list cannot be empty"
  | p0 :: prest =>
    let peers := p0 :: prest
    let srsw_stakes := peers.map (fun stake => Real.sqrt stake)
    let total := srsw_stakes.sum
    if total = 0 then .ok (randint peers.length rng)
    else
      let cumulative_probabilities := cumsum (srsw_stakes.map (fun x => x / total))
      let (random_number, rng') := nextFloat rng
      .ok ((firstGE cumulative_probabilities random_number).getD (peers.length - 1), rng')

/-- `utils.log_weighted_consensus` (the name is historical): weights
`√max(stake, 1e-8)`. -/
noncomputable def log_weighted_consensus (peers : List ℝ) (rng : Rng) :
    Except String (ℕ × Rng) :=
  match peers with
  | [] => .error "Peers list cannot be empty"
  | p0 :: prest =>
    let peers := p0 :: prest
    let log_stakes := peers.map (fun stake => Real.sqrt (max stake 1e-8))
    let total := log_stakes.sum
    if total = 0 then .ok (randint peers.length rng)
    else
      let cumulative_probabilities := cumsum (log_stakes.map (fun x => x / total))
      let (random_number, rng') := nextFloat rng
      .ok ((firstGE cumulative_probabilities random_number).getD (peers.length - 1), rng')

/-- `utils.random_consensus`: uniform pick, ignoring stakes. -/
noncomputable def random_consensus (peers : List ℝ) (rng : Rng) :
    Except String (ℕ × Rng) :=
  match peers with
  | [] => .error "Peers list cannot be empty"
  | _ :: _ => .ok (randint peers.length rng)

/-- `utils.consensus`: dispatch on the `PoS` tag (the source's default
`t = -1.0` is supplied by `simulate` at non-GiniStabilized call sites). -/
noncomputable def consensus (pos : PoS) (stakes : List ℝ) (t : ℝ) (rng : Rng) :
    Except String (ℕ × Rng) :=
  match pos with
  | .WEIGHTED => weighted_consensus stakes rng
  | .OPPOSITE_WEIGHTED => opposite_weighted_consensus stakes rng
  | .GINI_STABILIZED => gini_stabilized_consensus stakes t rng
  | .LOG_WEIGHTED => log_weighted_consensus stakes rng
  | .DESW => desw_consensus stakes rng
  | .SRSW_WEIGHTED => srsw_weighted_consensus stakes rng
  | .RANDOM => random_consensus stakes rng

/-- The total selection weight of each variant, read off the weight column of
the spec's variant table (§4.4); it is the quantity whose vanishing triggers
the uniform fallback of the corresponding selector. -/
noncomputable def selection_weight_total (pos : PoS) (peers : List ℝ) : ℝ :=
  match pos with
  | .WEIGHTED => peers.sum
  | .OPPOSITE_WEIGHTED => (peers.map (fun peer => |(peers.max?).getD 0 - peer|)).sum
  | .GINI_STABILIZED => peers.sum
  | .LOG_WEIGHTED => (peers.map (fun stake => Real.sqrt (max stake 1e-8))).sum
  | .DESW => peers.sum
  | .SRSW_WEIGHTED => (peers.map (fun stake => Real.sqrt stake)).sum
  | .RANDOM => (peers.length : ℝ)

/-- The stake of a newly joining peer (`try_to_join`'s `join_amount` policy);
consumes a `randint` draw only for `NEW_RANDOM` on a non-empty vector, as the
Python conditional expression does. -/
noncomputable def new_stake_of (stakes : List ℝ) (join_amount : NewEntry)
    (il : List ℕ) : ℝ × List ℕ :=
  match join_amount with
  | .NEW_AVERAGE => (if stakes.isEmpty then 0 else stakes.sum / stakes.length, il)
  | .NEW_MAX => (if stakes.isEmpty then 0 else (stakes.max?).getD 0, il)
  | .NEW_MIN => (if stakes.isEmpty then 0 else (stakes.min?).getD 0, il)
  | .NEW_RANDOM =>
    if stakes.isEmpty then (0, il)
    else
      match il with
      | [] => (stakes.getD (0 % stakes.length) 0, [])
      | u :: ir => (stakes.getD (u % stakes.length) 0, ir)

/-- The recursive attempt loop of `utils.try_to_join`, structured over the
float draw list: each attempt consumes the test draw; a successful attempt
appends a new stake, consumes a corruption draw, and retries.  An exhausted
float stream ends the loop (the Python recursion terminates with probability
one; over a finite draw list this is the total counterpart). -/
noncomputable def joinLoop (fl : List ℝ) (il : List ℕ) (stakes : List ℝ)
    (corrupted : List ℕ) (p : ℝ) (join_amount : NewEntry)
    (percentage_corrupted : ℝ) : List ℝ × List ℕ × List ℝ × List ℕ :=
  match fl with
  | [] => (stakes, corrupted, [], il)
  | dr :: rest =>
    if dr ≤ p then
      let (new_stake, il1) := new_stake_of stakes join_amount il
      let stakes' := stakes ++ [new_stake]
      let cd := rest.headD 1
      let corrupted' :=
        if cd ≤ percentage_corrupted then corrupted ++ [stakes'.length - 1]
        else corrupted
      joinLoop rest.tail il1 stakes' corrupted' p join_amount percentage_corrupted
    else (stakes, corrupted, rest, il)
termination_by fl.length
decreasing_by
  have h : r.tail.length ≤ r.length := by cases r <;> simp
  simp only [List.length_cons]
  omega

/-- `utils.try_to_join`. -/
noncomputable def try_to_join (stakes : List ℝ) (corrupted : List ℕ) (p : ℝ)
    (join_amount : NewEntry) (percentage_corrupted : ℝ) (rng : Rng) :
    List ℝ × List ℕ × Rng :=
  match joinLoop rng.floats rng.ints stakes corrupted p join_amount percentage_corrupted with
  | (stakes', corrupted', fl', il') => (stakes', corrupted', ⟨fl', il'⟩)

/-- `utils.try_to_leave`: with probability `p`, remove one uniformly random
entry; at most one removal; no draw is consumed on an empty vector (the
Python `and` short-circuits). -/
noncomputable def try_to_leave (stakes : List ℝ) (p : ℝ) (rng : Rng) :
    List ℝ × Rng :=
  if stakes.isEmpty then (stakes, rng)
  else
    let (dr, rng1) := nextFloat rng
    if dr ≤ p then
      let (index_to_remove, rng2) := randint stakes.length rng1
      (stakes.eraseIdx index_to_remove, rng2)
    else (stakes, rng1)

/-- The working state of one simulation run: the stake vector, the corrupted
position list, the GiniStabilized interpolation state `t` and the random
source. -/
structure SimState where
  stakes : List ℝ
  corrupted : List ℕ
  t : ℝ
  rng : Rng

/-- The stake amounts scheduled to join at epoch `i` (`simulate` groups the
`scheduled_joins` pairs into a per-epoch table, preserving order). -/
def scheduledFor (sj : Option (List (ℕ × ℝ))) (i : ℕ) : List ℝ :=
  match sj with
  | none => []
  | some l => (l.filter (fun e => e.1 = i)).map (fun e => e.2)

/-- The GiniStabilized smoothing step `s` computed by `simulate` from the
configured shape (the source's final branch covers `SQRT` and anything else).
Not needed on other variants. -/
noncomputable def smoothStep (params : Parameters) (g : ℝ) : ℝ :=
  match params.s_type with
  | .CONSTANT => params.k
  | .LINEAR => |g - params.θ| * params.k
  | .QUADRATIC => |g - params.θ| ^ 2 * params.k
  | .SQRT => |g - params.θ| ^ ((0.5 : ℝ)) * params.k

/-- One iteration of `simulate`'s epoch loop (`simulator.py`, lines 64-113):
scheduled joins, probabilistic churn, the three metric snapshots, validator
selection, reward or penalty, and the peer-count snapshot.  Returns the four
per-epoch history entries together with the updated working state, or the
error raised by `consensus`. -/
noncomputable def epochStep (params : Parameters) (percentage_corrupted : ℝ)
    (i : ℕ) (st : SimState) :
    Except String ((ℝ × ℕ × ℕ × ℝ) × SimState) :=
  let stakes0 := st.stakes ++ scheduledFor params.scheduled_joins i
  match try_to_join stakes0 st.corrupted params.p_join params.join_amount
      percentage_corrupted st.rng with
  | (stakes1, corrupted1, rng1) =>
    match try_to_leave stakes1 params.p_leave rng1 with
    | (stakes2, rng2) =>
      let g := gini stakes2
      let nc := nakamoto_coefficient stakes2 0.51
      let hhi := HHI_coefficient stakes2
      let tUsed := if params.proof_of_stake = PoS.GINI_STABILIZED then st.t else -1
      match consensus params.proof_of_stake stakes2 tUsed rng2 with
      | .error e => .error e
      | .ok (validator, rng3) =>
        let t' :=
          if params.proof_of_stake = PoS.GINI_STABILIZED then
            lerp st.t (d g params.θ) (smoothStep params g)
          else st.t
        if validator ∈ corrupted1 then
          let (fd, rng4) := nextFloat rng3
          if fd > 1 - params.p_fail then
            let stakes3 := stakes2.set validator
              (stakes2.getD validator 0 * (1 - params.penalty_percentage))
            .ok ((g, stakes3.length, nc, hhi), ⟨stakes3, corrupted1, t', rng4⟩)
          else
            let stakes3 := stakes2.set validator (stakes2.getD validator 0 + params.reward)
            .ok ((g, stakes3.length, nc, hhi), ⟨stakes3, corrupted1, t', rng4⟩)
        else
          let stakes3 := stakes2.set validator (stakes2.getD validator 0 + params.reward)
          .ok ((g, stakes3.length, nc, hhi), ⟨stakes3, corrupted1, t', rng3⟩)

/-- The epoch loop of `simulate`, accumulating the four histories in epoch
order; `rem` is the number of epochs still to run, `i` the current epoch
index. -/
noncomputable def simLoop (params : Parameters) (percentage_corrupted : ℝ) :
    ℕ → ℕ → SimState →
    Except String ((List ℝ × List ℕ × List ℕ × List ℝ) × SimState)
  | _, 0, st => .ok (([], [], [], []), st)
  | i, rem + 1, st =>
    match epochStep params percentage_corrupted i st with
    | .error e => .error e
    | .ok ((g, n, nc, hhi), st') =>
      match simLoop params percentage_corrupted (i + 1) rem st' with
      | .error e => .error e
      | .ok ((gh, nh, nch, hh), stFin) =>
        .ok ((g :: gh, n :: nh, nc :: nch, hhi :: hh), stFin)

/-- `simulator.simulate`, exposing also the final working state: the working
copies (the source deep-copies both inputs on entry), the fixed
`percentage_corrupted`, the initial interpolation state, and the epoch loop. -/
noncomputable def simulateFull (stakes : List ℝ) (corrupted : List ℕ)
    (params : Parameters) (rng : Rng) :
    Except String ((List ℝ × List ℕ × List ℕ × List ℝ) × SimState) :=
  let percentage_corrupted :=
    if stakes.isEmpty then 0 else (corrupted.length : ℝ) / stakes.length
  let t := d (gini stakes) params.θ
  simLoop params percentage_corrupted 0 params.n_epochs ⟨stakes, corrupted, t, rng⟩

/-- `simulator.simulate`: returns the four histories
`(gini, peer-count, nakamoto, hhi)`; the final working state is discarded. -/
noncomputable def simulate (stakes : List ℝ) (corrupted : List ℕ)
    (params : Parameters) (rng : Rng) :
    Except String (List ℝ × List ℕ × List ℕ × List ℝ) :=
  (simulateFull stakes corrupted params rng).map (fun r => r.1)

/-- A small heap of Python list objects, to make the aliasing behaviour of
`simulate` observable: `stakesH`/`corrH` map references to list values, and
`nextS`/`nextC` are the next unused references. -/
structure PyHeap where
  stakesH : ℕ → List ℝ
  corrH : ℕ → List ℕ
  nextS : ℕ
  nextC : ℕ

/-- `simulator.simulate` at the heap level: the caller passes references to
its stake-vector and corrupted-list objects.  Lines 43-44 of `simulator.py`
(`stakes = copy.deepcopy(stakes)`; `corrupted = copy.deepcopy(corrupted)`)
allocate fresh objects holding copies of the values and rebind the local
names to them; the run then mutates only those fresh objects, whose final
values are recorded at the fresh references. -/
noncomputable def simulateOp (sRef cRef : ℕ) (h : PyHeap) (params : Parameters)
    (rng : Rng) :
    Except String ((List ℝ × List ℕ × List ℕ × List ℝ) × PyHeap) :=
  let stakesCopy := h.stakesH sRef
  let corruptedCopy := h.corrH cRef
  match simulateFull stakesCopy corruptedCopy params rng with
  | .error e => .error e
  | .ok (hist, st) =>
    .ok (hist,
      { stakesH := Function.update h.stakesH h.nextS st.stakes
        corrH := Function.update h.corrH h.nextC st.corrupted
        nextS := h.nextS + 1
        nextC := h.nextC + 1 })

/-- `clamp(x, lo, hi)` as written in the spec's DESW row:
the value `x` clamped to the interval `[lo, hi]`. -/
noncomputable def clamp_spec (x lo hi : ℝ) : ℝ :=
  max lo (min x hi)

/-- A concrete validated parameter set: one epoch, RANDOM selection, no
churn, no scheduled joins. -/
noncomputable def paramsA : Parameters :=
  { n_epochs := 1
    proof_of_stake := .RANDOM
    initial_stake_volume := 10000
    initial_distribution := .GINI
    initial_gini := 0.3
    n_peers := 1
    n_corrupted := 0
    p_fail := 0.5
    p_join := 0
    p_leave := 0
    join_amount := .NEW_AVERAGE
    penalty_percentage := 0.5
    θ := 0.3
    s_type := .LINEAR
    k := 0.001
    reward := 10
    scheduled_joins := none }

/-- A concrete validated parameter set with certain leaving
(`p_leave = 1`) and WEIGHTED selection. -/
noncomputable def paramsB : Parameters :=
  { paramsA with proof_of_stake := .WEIGHTED, p_leave := 1 }

/-- A concrete heap: one allocated stake-vector object `[1]` at reference 0
and one allocated corrupted-list object `[]` at reference 0. -/
noncomputable def heapA : PyHeap :=
  { stakesH := fun _ => [1]
    corrH := fun _ => []
    nextS := 1
    nextC := 1 }

/-- The heap left by running `simulateOp 0 0 heapA paramsA ⟨[1, 1], [0]⟩`:
the engine's fresh objects at the new references 1 hold the end-of-run
state. -/
noncomputable def heapA' : PyHeap :=
  { stakesH := Function.update heapA.stakesH 1 [11]
    corrH := Function.update heapA.corrH 1 []
    nextS := 2
    nextC := 2 }

/-! ### Basic facts about the random source and the helper scans -/

theorem nextFloat_floats (rng : Rng) : ((nextFloat rng).2).floats = rng.floats.tail := by
  rcases rng with ⟨fl, il⟩
  cases fl <;> rfl

theorem nextInt_floats (rng : Rng) : ((nextInt rng).2).floats = rng.floats := by
  rcases rng with ⟨fl, il⟩
  cases il <;> rfl

theorem randint_floats (n : ℕ) (rng : Rng) : ((randint n rng).2).floats = rng.floats := by
  rcases h : nextInt rng with ⟨u, rng'⟩
  have := nextInt_floats rng
  rw [h] at this
  simp at this
  simp [randint, h, this]

theorem randint_fst (n : ℕ) (rng : Rng) : (randint n rng).1 = (nextInt rng).1 % n := by
  rcases h : nextInt rng with ⟨u, rng'⟩
  simp [randint, h]

theorem randint_lt (n : ℕ) (rng : Rng) (hn : 0 < n) : (randint n rng).1 < n := by
  rw [randint_fst]
  exact Nat.mod_lt _ hn

theorem mem_tail_mem {α : Type} {l : List α} {x : α} (h : x ∈ l.tail) : x ∈ l := by
  cases l with
  | nil => simp at h
  | cons a r => exact List.mem_cons_of_mem a h

/-- The selection scan returns an index below the length of the scanned
list whenever it returns one. -/
theorem firstGE_lt {cum : List ℝ} {r : ℝ} {i : ℕ} (h : firstGE cum r = some i) :
    i < cum.length := by
  induction cum generalizing i with
  | nil => simp [firstGE] at h
  | cons c rest ih =>
    rw [firstGE] at h
    split at h
    · simp at h
      simp [List.length_cons]
      omega
    · rcases hrec : firstGE rest r with _ | j
      · rw [hrec] at h
        simp at h
      · rw [hrec] at h
        simp at h
        have := ih hrec
        simp [List.length_cons]
        omega

/-! ### C2, C9, C10 -/

/-- C2: for every one of the 7 PoS variants, calling `consensus` with an empty
stake vector signals an error to the caller (for `GINI_STABILIZED`, either the
`t = -1` validation error or the empty-vector error, depending on `t`); no
variant returns a default position. -/
theorem consensus_empty_stakes_signals_error (pos : PoS) (t : ℝ) (rng : Rng) :
    ∃ msg, consensus pos [] t rng = .error msg := by
  cases pos with
  | GINI_STABILIZED =>
    by_cases h : t = -1
    · exact ⟨"Cannot launch GiniStabilized with t = -1",
        by simp [consensus, gini_stabilized_consensus, h]⟩
    · exact ⟨"Peers list cannot be empty",
        by simp [consensus, gini_stabilized_consensus, h]⟩
  | WEIGHTED => exact ⟨"Peers list cannot be empty", rfl⟩
  | OPPOSITE_WEIGHTED => exact ⟨"Peers list cannot be empty", rfl⟩
  | LOG_WEIGHTED => exact ⟨"Peers list cannot be empty", rfl⟩
  | DESW => exact ⟨"Peers list cannot be empty", rfl⟩
  | SRSW_WEIGHTED => exact ⟨"Peers list cannot be empty", rfl⟩
  | RANDOM => exact ⟨"Peers list cannot be empty", rfl⟩

/-- C9: for every non-empty stake vector with positive total, the exponent
used by the DESW selector equals `clamp(1 - Gini(stakes), 0.2, 0.8)`, and in
particular lies in `[0.2, 0.8]` whatever the computed Gini value is. -/
theorem desw_exponent_clamped (peers : List ℝ) (hne : peers ≠ [])
    (hpos : 0 < peers.sum) :
    desw_p peers = clamp_spec (1 - gini peers) 0.2 0.8 ∧
    0.2 ≤ desw_p peers ∧ desw_p peers ≤ 0.8 := by
  refine ⟨by rw [desw_p, clamp_spec, min_comm], le_max_left _ _, ?_⟩
  exact max_le (by norm_num) (min_le_left _ _)

/-- C9 witness: the vector `[1, 1]` (Gini 0) is non-empty with positive
total, and the theorem applies to it. -/
theorem desw_exponent_clamped_witness :
    desw_p [1, 1] = clamp_spec (1 - gini [1, 1]) 0.2 0.8 ∧
    0.2 ≤ desw_p [1, 1] ∧ desw_p [1, 1] ≤ 0.8 :=
  desw_exponent_clamped [1, 1] (by simp) (by norm_num)

theorem ncLoop_mono {l : List ℝ} {t1 t2 : ℝ} (h : t1 ≤ t2) :
    ∀ acc, ncLoop l acc t1 ≤ ncLoop l acc t2 := by
  induction l with
  | nil => intro acc; simp [ncLoop]
  | cons v rest ih =>
    intro acc
    rw [ncLoop, ncLoop]
    split
    · split
      · exact le_refl 1
      · have := ih (acc + v)
        omega
    · split
      · rename_i h1 h2
        exact absurd (le_trans h h2) h1
      · have := ih (acc + v)
        omega

/-- C10: for a fixed non-empty stake vector of non-negative entries,
`nakamoto_coefficient` is monotone in the threshold: a lower threshold never
needs more entries. -/
theorem nakamoto_threshold_monotone (data : List ℝ) (hne : data ≠ [])
    (hnn : ∀ x ∈ data, 0 ≤ x) (t1 t2 : ℝ) (h12 : t1 ≤ t2) :
    nakamoto_coefficient data t1 ≤ nakamoto_coefficient data t2 := by
  cases data with
  | nil => exact absurd rfl hne
  | cons d0 drest =>
    by_cases hs : (d0 :: drest).sum = 0
    · simp [nakamoto_coefficient, hs]
    · have htot : 0 ≤ (d0 :: drest).sum := List.sum_nonneg hnn
      simp only [nakamoto_coefficient, hs, if_false]
      exact ncLoop_mono (mul_le_mul_of_nonneg_left h12 htot) 0

/-- C10 witness: the theorem applies to `[100, 200, 300, 400, 500]` with
thresholds `0.33 ≤ 0.51`. -/
theorem nakamoto_threshold_monotone_witness :
    nakamoto_coefficient [100, 200, 300, 400, 500] 0.33 ≤
      nakamoto_coefficient [100, 200, 300, 400, 500] 0.51 :=
  nakamoto_threshold_monotone [100, 200, 300, 400, 500] (by simp)
    (by norm_num) 0.33 0.51 (by norm_num)

/-! ### C4: the two HHI implementations -/

theorem filter_pos_sum (l : List ℝ) (h : ∀ x ∈ l, 0 ≤ x) :
    (l.filter (fun w => decide (0 < w))).sum = l.sum := by
  induction l with
  | nil => rfl
  | cons a rest ih =>
    have ha : 0 ≤ a := h a (List.mem_cons_self a rest)
    have hrest := ih (fun x hx => h x (List.mem_cons_of_mem a hx))
    by_cases hp : 0 < a
    · simp [List.filter_cons, hp, hrest]
    · have : a = 0 := le_antisymm (not_lt.mp hp) ha
      simp [List.filter_cons, hp, hrest, this]

theorem filter_pos_sq_sum (l : List ℝ) (t : ℝ) (h : ∀ x ∈ l, 0 ≤ x) :
    ((l.filter (fun w => decide (0 < w))).map (fun w => (w / t) ^ 2)).sum =
      (l.map (fun w => (w / t) ^ 2)).sum := by
  induction l with
  | nil => rfl
  | cons a rest ih =>
    have ha : 0 ≤ a := h a (List.mem_cons_self a rest)
    have hrest := ih (fun x hx => h x (List.mem_cons_of_mem a hx))
    by_cases hp : 0 < a
    · simp [List.filter_cons, hp, hrest]
    · have : a = 0 := le_antisymm (not_lt.mp hp) ha
      simp [List.filter_cons, hp, hrest, this]

/-- C4 (amended): the analysis-chain HHI (`calculate_hhi_coefficient`)
implements exactly the described algorithm (drop non-positive entries, 0 on
zero remaining total, sum of squared shares, normalized rescale when more
than one entry remains); the simulator's `HHI_coefficient` performs no
dropping, but agrees with it on vectors of non-negative entries. -/
theorem hhi_described_and_simulator_agreement :
    (∀ (data : List ℝ) (normalize : Bool),
      calculate_hhi_coefficient data normalize = hhi_spec_description data normalize) ∧
    (∀ data : List ℝ, (∀ x ∈ data, 0 ≤ x) →
      HHI_coefficient data = calculate_hhi_coefficient data false) := by
  constructor
  · intro data normalize
    rfl
  · intro data h
    cases data with
    | nil => simp [HHI_coefficient, calculate_hhi_coefficient]
    | cons d0 drest =>
      simp only [calculate_hhi_coefficient, HHI_coefficient]
      rw [filter_pos_sum _ h]
      by_cases hs : (d0 :: drest).sum = 0
      · simp [hs]
      · simp only [hs, if_false, Bool.false_and]
        rw [filter_pos_sq_sum _ _ h]
        simp

/-- C4 witness: the two conjuncts applied at the concrete inputs `[2]`
(with normalize) and `[1]` (non-negative entries). -/
theorem hhi_described_and_simulator_agreement_witness :
    calculate_hhi_coefficient [2] true = hhi_spec_description [2] true ∧
    HHI_coefficient [1] = calculate_hhi_coefficient [1] false :=
  ⟨hhi_described_and_simulator_agreement.1 [2] true,
    hhi_described_and_simulator_agreement.2 [1] (by norm_num)⟩

/-- C4 counterexample: on the input `[-1, 2]` the simulator's MetricsEngine
HHI (`utils.HHI_coefficient`) does not drop the non-positive entry: it
returns `(-1/1)² + (2/1)² = 5`, while the described drop-then-square
algorithm returns `(2/2)² = 1`. -/
theorem hhi_no_drop_cex :
    HHI_coefficient [-1, 2] = 5 ∧ hhi_spec_description [-1, 2] false = 1 ∧
    (5 : ℝ) ≠ 1 := by
  refine ⟨?_, ?_, by norm_num⟩
  · norm_num [HHI_coefficient]
  · norm_num [hhi_spec_description, List.filter_cons]

/-! ### C5: LOG_WEIGHTED versus SRSW_WEIGHTED -/

/-- C5 (amended): the LOG_WEIGHTED and SRSW_WEIGHTED selectors agree on every
non-empty stake vector all of whose entries are at least `ε = 1e-8` (there
`√max(stake, ε) = √stake`), for the same random draws; they can differ on
vectors with an entry below `ε`. -/
theorem log_weighted_eq_srsw_above_epsilon (peers : List ℝ) (rng : Rng)
    (hne : peers ≠ []) (h : ∀ s ∈ peers, (1e-8 : ℝ) ≤ s) :
    log_weighted_consensus peers rng = srsw_weighted_consensus peers rng := by
  cases peers with
  | nil => exact absurd rfl hne
  | cons p0 prest =>
    have hmap : (p0 :: prest).map (fun stake => Real.sqrt (max stake 1e-8)) =
        (p0 :: prest).map (fun stake => Real.sqrt stake) :=
      List.map_congr_left (fun s hs => by rw [max_eq_left (h s hs)])
    simp only [log_weighted_consensus, srsw_weighted_consensus, hmap]

/-- C5 witness: the amended theorem applies to the vector `[1]`. -/
theorem log_weighted_eq_srsw_above_epsilon_witness :
    log_weighted_consensus [1] ⟨[0.5], []⟩ = srsw_weighted_consensus [1] ⟨[0.5], []⟩ :=
  log_weighted_eq_srsw_above_epsilon [1] ⟨[0.5], []⟩ (by simp) (by norm_num)

/-- C5 counterexample: on the stake vector `[0, 1]` with the same draw
`r = 1e-5`, LOG_WEIGHTED selects position 0 (its weight for a zero stake is
`√1e-8 = 1e-4 > 0`) while SRSW_WEIGHTED selects position 1 (its weight for a
zero stake is `√0 = 0`): the two variants are not behaviorally identical. -/
theorem log_weighted_vs_srsw_at_zero_stake :
    log_weighted_consensus [0, 1] ⟨[1e-5], []⟩ = .ok (0, ⟨[], []⟩) ∧
    srsw_weighted_consensus [0, 1] ⟨[1e-5], []⟩ = .ok (1, ⟨[], []⟩) ∧
    (0 : ℕ) ≠ 1 := by
  have hsq : Real.sqrt 100000000 = 10000 := by
    rw [show (100000000 : ℝ) = (10000 : ℝ) ^ 2 by norm_num]
    exact Real.sqrt_sq (by norm_num)
  refine ⟨?_, ?_, by norm_num⟩
  · norm_num [log_weighted_consensus, cumsum, cumsumFrom, firstGE, nextFloat,
      hsq, max_eq_right, max_eq_left, Real.sqrt_one]
  · norm_num [srsw_weighted_consensus, cumsum, cumsumFrom, firstGE, nextFloat,
      Real.sqrt_zero, Real.sqrt_one]

/-! ### C6: zero total selection weight falls back to a uniform pick -/

/-- C6 (amended): for every non-empty stake vector of non-negative entries
whose total selection weight vanishes, every consensus variant returns the
uniformly random valid position `randint` instead of signalling an error —
with the proviso that GINI_STABILIZED is called at an interpolation state
`t ≠ -1` (at the sentinel `t = -1` its `t`-validation error fires first). -/
theorem consensus_zero_weight_uniform_pick (pos : PoS) (peers : List ℝ)
    (t : ℝ) (rng : Rng) (hne : peers ≠ []) (hnn : ∀ s ∈ peers, 0 ≤ s)
    (ht : pos = PoS.GINI_STABILIZED → t ≠ -1)
    (hw : selection_weight_total pos peers = 0) :
    consensus pos peers t rng = .ok (randint peers.length rng) ∧
    (randint peers.length rng).1 < peers.length := by
  cases peers with
  | nil => exact absurd rfl hne
  | cons p0 prest =>
    refine ⟨?_, randint_lt _ _ (by simp)⟩
    cases pos with
    | WEIGHTED =>
      simp only [selection_weight_total] at hw
      simp [consensus, weighted_consensus, hw]
    | OPPOSITE_WEIGHTED =>
      simp only [selection_weight_total] at hw
      simp only [consensus, opposite_weighted_consensus]
      rw [if_pos hw]
    | GINI_STABILIZED =>
      simp only [selection_weight_total] at hw
      simp [consensus, gini_stabilized_consensus, ht rfl, hw]
    | LOG_WEIGHTED =>
      exfalso
      simp only [selection_weight_total] at hw
      have hpos : 0 < ((p0 :: prest).map (fun stake => Real.sqrt (max stake 1e-8))).sum := by
        apply List.sum_pos
        · intro x hx
          obtain ⟨s, _, rfl⟩ := List.mem_map.mp hx
          exact Real.sqrt_pos.mpr (lt_of_lt_of_le (by norm_num) (le_max_right s 1e-8))
        · simp
      exact absurd hw (ne_of_gt hpos)
    | DESW =>
      simp only [selection_weight_total] at hw
      simp [consensus, desw_consensus, hw]
    | SRSW_WEIGHTED =>
      simp only [selection_weight_total] at hw
      simp only [consensus, srsw_weighted_consensus]
      rw [if_pos hw]
    | RANDOM =>
      simp [consensus, random_consensus]

/-- C6 witness: the theorem applies to the WEIGHTED variant on the all-zero
stake vector `[0, 0]`. -/
theorem consensus_zero_weight_uniform_pick_witness :
    consensus PoS.WEIGHTED [0, 0] 0 ⟨[], [5]⟩ =
      .ok (randint (([0, 0] : List ℝ)).length ⟨[], [5]⟩) ∧
    (randint (([0, 0] : List ℝ)).length ⟨[], [5]⟩).1 < (([0, 0] : List ℝ)).length :=
  consensus_zero_weight_uniform_pick PoS.WEIGHTED [0, 0] 0 ⟨[], [5]⟩
    (by simp) (by norm_num) (fun hpos => by cases hpos)
    (by norm_num [selection_weight_total])

/-- C6 counterexample: the GINI_STABILIZED variant at the sentinel
interpolation state `t = -1` (the default `consensus` supplies when no `t` is
given) raises its `t`-validation error even on the non-empty, non-negative,
zero-total-weight vector `[0]`, instead of returning a uniform pick. -/
theorem gini_stabilized_sentinel_error_cex :
    (([0] : List ℝ)) ≠ [] ∧ (∀ s ∈ ([0] : List ℝ), 0 ≤ s) ∧
    selection_weight_total PoS.GINI_STABILIZED [0] = 0 ∧
    consensus PoS.GINI_STABILIZED [0] (-1) ⟨[], []⟩ =
      .error "Cannot launch GiniStabilized with t = -1" := by
  refine ⟨by simp, by norm_num, by norm_num [selection_weight_total], ?_⟩
  simp [consensus, gini_stabilized_consensus]

/-! ### C3: the engine works on deep copies of the caller's objects -/

/-- C3 (amended): `simulate` deep-copies the caller-supplied stake vector and
corrupted list on entry and mutates only the fresh copies, so after a run the
caller's objects still hold the pre-run values; the end-of-run state lives in
the engine's own objects. -/
theorem simulate_preserves_caller_objects (sRef cRef : ℕ) (h : PyHeap)
    (params : Parameters) (rng : Rng) (hs : sRef < h.nextS) (hc : cRef < h.nextC)
    (hist : List ℝ × List ℕ × List ℕ × List ℝ) (h' : PyHeap)
    (hok : simulateOp sRef cRef h params rng = .ok (hist, h')) :
    h'.stakesH sRef = h.stakesH sRef ∧ h'.corrH cRef = h.corrH cRef := by
  rw [simulateOp] at hok
  rcases hrun : simulateFull (h.stakesH sRef) (h.corrH cRef) params rng with e | ⟨hist0, st⟩
  · rw [hrun] at hok
    exact absurd hok (by simp)
  · rw [hrun] at hok
    simp only [Except.ok.injEq, Prod.mk.injEq] at hok
    obtain ⟨h1, h2⟩ := hok
    rw [← h2]
    constructor
    · exact Function.update_noteq (Nat.ne_of_lt hs) _ _
    · exact Function.update_noteq (Nat.ne_of_lt hc) _ _

/-! ### C1: history lengths -/

theorem simLoop_lengths (params : Parameters) (pc : ℝ) :
    ∀ (rem i : ℕ) (st : SimState) (g : List ℝ) (n : List ℕ) (nc : List ℕ)
      (h : List ℝ) (st' : SimState),
    simLoop params pc i rem st = .ok ((g, n, nc, h), st') →
    g.length = rem ∧ n.length = rem ∧ nc.length = rem ∧ h.length = rem := by
  intro rem
  induction rem with
  | zero =>
    intro i st g n nc h st' hok
    rw [simLoop] at hok
    simp only [Except.ok.injEq, Prod.mk.injEq] at hok
    obtain ⟨⟨hg, hn, hnc, hh⟩, _⟩ := hok
    rw [← hg, ← hn, ← hnc, ← hh]
    simp
  | succ rem ih =>
    intro i st g n nc h st' hok
    rw [simLoop] at hok
    rcases he : epochStep params pc i st with e | ⟨⟨g0, n0, nc0, h0⟩, st1⟩
    · rw [he] at hok
      simp at hok
    · rw [he] at hok
      dsimp only at hok
      rcases hr : simLoop params pc (i + 1) rem st1 with e | ⟨⟨gh, nh, nch, hh⟩, st2⟩
      · rw [hr] at hok
        simp at hok
      · rw [hr] at hok
        dsimp only at hok
        simp only [Except.ok.injEq, Prod.mk.injEq] at hok
        obtain ⟨⟨hg, hn, hnc, hh'⟩, _⟩ := hok
        obtain ⟨ihg, ihn, ihnc, ihh⟩ := ih (i + 1) st1 gh nh nch hh st2 hr
        rw [← hg, ← hn, ← hnc, ← hh']
        simp [ihg, ihn, ihnc, ihh]

/-- C1 (amended): for every initial non-empty stake vector, corrupted list of
valid positions, validated `Parameters` and draw sequence, whenever `simulate`
returns normally (it can instead signal an error, e.g. when leaves empty the
stake vector mid-run), the four returned histories (gini, peer-count,
nakamoto, hhi) each have length exactly `params.n_epochs`, built in epoch
order. -/
theorem simulate_ok_four_histories_length (stakes : List ℝ) (corrupted : List ℕ)
    (params : Parameters) (rng : Rng) (hv : params.Valid) (hne : stakes ≠ [])
    (hcorr : ∀ i ∈ corrupted, i < stakes.length)
    (g : List ℝ) (n : List ℕ) (nc : List ℕ) (h : List ℝ)
    (hok : simulate stakes corrupted params rng = .ok (g, n, nc, h)) :
    g.length = params.n_epochs ∧ n.length = params.n_epochs ∧
    nc.length = params.n_epochs ∧ h.length = params.n_epochs := by
  rcases hm : simulateFull stakes corrupted params rng with e | ⟨⟨gh, nh, nch, hh⟩, st⟩
  · rw [simulate, hm] at hok
    simp [Except.map] at hok
  · rw [simulate, hm] at hok
    simp only [Except.map, Except.ok.injEq, Prod.mk.injEq] at hok
    obtain ⟨hg, hn, hnc, hh'⟩ := hok
    rw [simulateFull] at hm
    obtain ⟨lg, ln, lnc, lh⟩ :=
      simLoop_lengths params _ params.n_epochs 0 _ gh nh nch hh st hm
    rw [← hg, ← hn, ← hnc, ← hh']
    exact ⟨lg, ln, lnc, lh⟩

/-! ### C8: the corrupted set only grows -/

theorem joinLoop_corrupted : ∀ (N : ℕ) (fl : List ℝ) (il : List ℕ)
    (stakes : List ℝ) (corr : List ℕ) (p : ℝ) (ja : NewEntry) (pc : ℝ),
    fl.length ≤ N →
    ∃ l, (joinLoop fl il stakes corr p ja pc).2.1 = corr ++ l := by
  intro N
  induction N with
  | zero =>
    intro fl il stakes corr p ja pc hlen
    have : fl = [] := List.eq_nil_of_length_eq_zero (Nat.le_zero.mp hlen)
    subst this
    rw [joinLoop]
    exact ⟨[], by simp⟩
  | succ N ih =>
    intro fl il stakes corr p ja pc hlen
    cases fl with
    | nil =>
      rw [joinLoop]
      exact ⟨[], by simp⟩
    | cons dr rest =>
      rw [joinLoop]
      by_cases hdr : dr ≤ p
      · simp only [hdr, if_true]
        rcases hns : new_stake_of stakes ja il with ⟨ns, il1⟩
        have hrlen : rest.tail.length ≤ N := by
          have h1 : rest.tail.length ≤ rest.length := by cases rest <;> simp
          simp only [List.length_cons] at hlen
          omega
        by_cases hcd : rest.headD 1 ≤ pc
        · simp only [hcd, if_true]
          obtain ⟨l2, hl2⟩ := ih rest.tail il1 (stakes ++ [ns])
            (corr ++ [(stakes ++ [ns]).length - 1]) p ja pc hrlen
          exact ⟨((stakes ++ [ns]).length - 1) :: l2, by rw [hl2, List.append_assoc]; rfl⟩
        · simp only [hcd, if_false]
          exact ih rest.tail il1 (stakes ++ [ns]) corr p ja pc hrlen
      · simp only [hdr, if_false]
        exact ⟨[], by simp⟩

theorem try_to_join_corrupted (stakes : List ℝ) (corr : List ℕ) (p : ℝ)
    (ja : NewEntry) (pc : ℝ) (rng : Rng) :
    ∃ l, (try_to_join stakes corr p ja pc rng).2.1 = corr ++ l := by
  rw [try_to_join]
  obtain ⟨l, hl⟩ := joinLoop_corrupted rng.floats.length rng.floats rng.ints
    stakes corr p ja pc (le_refl _)
  rcases hj : joinLoop rng.floats rng.ints stakes corr p ja pc with ⟨s', c', fl', il'⟩
  rw [hj] at hl
  exact ⟨l, hl⟩

theorem epochStep_corrupted (params : Parameters) (pc : ℝ) (i : ℕ)
    (st : SimState) (out : ℝ × ℕ × ℕ × ℝ) (st' : SimState)
    (hok : epochStep params pc i st = .ok (out, st')) :
    ∃ l, st'.corrupted = st.corrupted ++ l := by
  rw [epochStep] at hok
  rcases htj : try_to_join (st.stakes ++ scheduledFor params.scheduled_joins i)
      st.corrupted params.p_join params.join_amount pc st.rng with ⟨stakes1, corrupted1, rng1⟩
  obtain ⟨l, hl⟩ := try_to_join_corrupted (st.stakes ++ scheduledFor params.scheduled_joins i)
    st.corrupted params.p_join params.join_amount pc st.rng
  rw [htj] at hok hl
  dsimp only at hok
  refine ⟨l, ?_⟩
  rcases htl : try_to_leave stakes1 params.p_leave rng1 with ⟨stakes2, rng2⟩
  rw [htl] at hok
  dsimp only at hok
  rcases hc : consensus params.proof_of_stake stakes2
      (if params.proof_of_stake = PoS.GINI_STABILIZED then st.t else -1) rng2 with e | ⟨v, rng3⟩
  · rw [hc] at hok
    simp at hok
  · rw [hc] at hok
    dsimp only at hok
    split at hok
    · split at hok
      · simp only [Except.ok.injEq, Prod.mk.injEq] at hok
        rw [← hok.2]
        exact hl
      · simp only [Except.ok.injEq, Prod.mk.injEq] at hok
        rw [← hok.2]
        exact hl
    · simp only [Except.ok.injEq, Prod.mk.injEq] at hok
      rw [← hok.2]
      exact hl

theorem simLoop_corrupted (params : Parameters) (pc : ℝ) :
    ∀ (rem i : ℕ) (st : SimState) (hist : List ℝ × List ℕ × List ℕ × List ℝ)
      (st' : SimState),
    simLoop params pc i rem st = .ok (hist, st') →
    ∃ l, st'.corrupted = st.corrupted ++ l := by
  intro rem
  induction rem with
  | zero =>
    intro i st hist st' hok
    rw [simLoop] at hok
    simp only [Except.ok.injEq, Prod.mk.injEq] at hok
    rw [← hok.2]
    exact ⟨[], by simp⟩
  | succ rem ih =>
    intro i st hist st' hok
    rw [simLoop] at hok
    rcases he : epochStep params pc i st with e | ⟨⟨g0, n0, nc0, h0⟩, st1⟩
    · rw [he] at hok
      simp at hok
    · rw [he] at hok
      dsimp only at hok
      rcases hr : simLoop params pc (i + 1) rem st1 with e | ⟨⟨gh, nh, nch, hh⟩, st2⟩
      · rw [hr] at hok
        simp at hok
      · rw [hr] at hok
        dsimp only at hok
        simp only [Except.ok.injEq, Prod.mk.injEq] at hok
        obtain ⟨l1, hl1⟩ := epochStep_corrupted params pc i st _ st1 he
        obtain ⟨l2, hl2⟩ := ih (i + 1) st1 _ st2 hr
        refine ⟨l1 ++ l2, ?_⟩
        rw [← hok.2, hl2, hl1, List.append_assoc]

/-- C8: throughout a simulation run the corrupted set only grows: the final
corrupted list of the run extends the initial one by appended positions; no
position is ever removed and existing entries are never re-indexed (in
particular `try_to_leave` takes only the stake vector and cannot touch it). -/
theorem corrupted_set_only_grows (stakes : List ℝ) (corrupted : List ℕ)
    (params : Parameters) (rng : Rng)
    (hist : List ℝ × List ℕ × List ℕ × List ℝ) (st' : SimState)
    (hok : simulateFull stakes corrupted params rng = .ok (hist, st')) :
    ∃ l, st'.corrupted = corrupted ++ l := by
  rw [simulateFull] at hok
  exact simLoop_corrupted params _ params.n_epochs 0 _ hist st' hok

/-! ### C7: constant peer count without churn -/

theorem consensus_floats (pos : PoS) (stakes : List ℝ) (t : ℝ) (rng : Rng)
    (v : ℕ) (rng' : Rng) (h : consensus pos stakes t rng = .ok (v, rng')) :
    rng'.floats = rng.floats ∨ rng'.floats = rng.floats.tail := by
  have hzero : ∀ n : ℕ, (Except.ok (randint n rng) : Except String (ℕ × Rng)) = .ok (v, rng') →
      rng'.floats = rng.floats := by
    intro n hn
    simp only [Except.ok.injEq] at hn
    have h2 := congrArg Prod.snd hn
    simp only at h2
    rw [← h2, randint_floats]
  have hpick : ∀ idx : ℕ,
      (Except.ok (idx, (nextFloat rng).2) : Except String (ℕ × Rng)) = .ok (v, rng') →
      rng'.floats = rng.floats.tail := by
    intro idx hn
    simp only [Except.ok.injEq, Prod.mk.injEq] at hn
    rw [← hn.2, nextFloat_floats]
  cases pos with
  | WEIGHTED =>
    cases stakes with
    | nil => simp [consensus, weighted_consensus] at h
    | cons p0 prest =>
      rw [consensus, weighted_consensus] at h
      dsimp only at h
      split at h
      · exact Or.inl (hzero _ h)
      · exact Or.inr (hpick _ h)
  | OPPOSITE_WEIGHTED =>
    cases stakes with
    | nil => simp [consensus, opposite_weighted_consensus] at h
    | cons p0 prest =>
      rw [consensus, opposite_weighted_consensus] at h
      dsimp only at h
      split at h
      · exact Or.inl (hzero _ h)
      · exact Or.inr (hpick _ h)
  | GINI_STABILIZED =>
    rw [consensus, gini_stabilized_consensus.eq_def] at h
    split at h
    · simp at h
    · cases stakes with
      | nil => simp at h
      | cons p0 prest =>
        dsimp only at h
        split at h
        · exact Or.inl (hzero _ h)
        · exact Or.inr (hpick _ h)
  | LOG_WEIGHTED =>
    cases stakes with
    | nil => simp [consensus, log_weighted_consensus] at h
    | cons p0 prest =>
      rw [consensus, log_weighted_consensus] at h
      dsimp only at h
      split at h
      · exact Or.inl (hzero _ h)
      · exact Or.inr (hpick _ h)
  | DESW =>
    cases stakes with
    | nil => simp [consensus, desw_consensus] at h
    | cons p0 prest =>
      rw [consensus, desw_consensus] at h
      dsimp only at h
      split at h
      · exact Or.inl (hzero _ h)
      · exact Or.inr (hpick _ h)
  | SRSW_WEIGHTED =>
    cases stakes with
    | nil => simp [consensus, srsw_weighted_consensus] at h
    | cons p0 prest =>
      rw [consensus, srsw_weighted_consensus] at h
      dsimp only at h
      split at h
      · exact Or.inl (hzero _ h)
      · exact Or.inr (hpick _ h)
  | RANDOM =>
    cases stakes with
    | nil => simp [consensus, random_consensus] at h
    | cons p0 prest =>
      rw [consensus, random_consensus] at h
      exact Or.inl (hzero _ h)

theorem joinLoop_p_zero (fl : List ℝ) (il : List ℕ) (stakes : List ℝ)
    (corr : List ℕ) (ja : NewEntry) (pc : ℝ) (hpos : ∀ x ∈ fl, 0 < x) :
    joinLoop fl il stakes corr 0 ja pc = (stakes, corr, fl.tail, il) := by
  cases fl with
  | nil =>
    rw [joinLoop]
    rfl
  | cons dr rest =>
    rw [joinLoop]
    have : ¬dr ≤ 0 := not_le.mpr (hpos dr (List.mem_cons_self dr rest))
    simp [this]

theorem try_to_leave_p_zero (stakes : List ℝ) (rng : Rng)
    (hpos : ∀ x ∈ rng.floats, 0 < x) :
    ∃ rng1, try_to_leave stakes 0 rng = (stakes, rng1) ∧
      (rng1.floats = rng.floats ∨ rng1.floats = rng.floats.tail) := by
  by_cases he : stakes.isEmpty
  · exact ⟨rng, by rw [try_to_leave, if_pos he], Or.inl rfl⟩
  · rcases rng with ⟨fl, il⟩
    cases fl with
    | nil =>
      refine ⟨⟨[], il⟩, ?_, Or.inl rfl⟩
      rw [try_to_leave, if_neg he]
      dsimp only [nextFloat]
      rw [if_neg (by norm_num : ¬(1 : ℝ) ≤ 0)]
    | cons x r =>
      have hx : 0 < x := hpos x (List.mem_cons_self x r)
      refine ⟨⟨r, il⟩, ?_, Or.inr rfl⟩
      rw [try_to_leave, if_neg he]
      dsimp only [nextFloat]
      rw [if_neg (not_le.mpr hx)]

theorem epochStep_const_peers (params : Parameters) (pc : ℝ) (i : ℕ)
    (st : SimState) (out : ℝ × ℕ × ℕ × ℝ) (st' : SimState)
    (hj : params.p_join = 0) (hl : params.p_leave = 0)
    (hs : params.scheduled_joins = none)
    (hpos : ∀ x ∈ st.rng.floats, 0 < x)
    (hok : epochStep params pc i st = .ok (out, st')) :
    st'.stakes.length = st.stakes.length ∧ out.2.1 = st.stakes.length ∧
    (∀ x ∈ st'.rng.floats, 0 < x) := by
  have htailpos : ∀ (l : List ℝ), (∀ x ∈ l, 0 < x) → ∀ x ∈ l.tail, 0 < x :=
    fun l hp x hx => hp x (mem_tail_mem hx)
  rw [epochStep, hs, hj, hl] at hok
  have hsched : scheduledFor none i = [] := rfl
  rw [hsched, List.append_nil] at hok
  have htj : try_to_join st.stakes st.corrupted 0 params.join_amount pc st.rng =
      (st.stakes, st.corrupted, ⟨st.rng.floats.tail, st.rng.ints⟩) := by
    rw [try_to_join, joinLoop_p_zero _ _ _ _ _ _ hpos]
  rw [htj] at hok
  dsimp only at hok
  have hpos1 : ∀ x ∈ (Rng.mk st.rng.floats.tail st.rng.ints).floats, 0 < x :=
    htailpos _ hpos
  obtain ⟨rng2, htl, hfl2⟩ := try_to_leave_p_zero st.stakes ⟨st.rng.floats.tail, st.rng.ints⟩ hpos1
  rw [htl] at hok
  dsimp only at hok
  have hpos2 : ∀ x ∈ rng2.floats, 0 < x := by
    rcases hfl2 with h2 | h2
    · rw [h2]; exact hpos1
    · rw [h2]; exact htailpos _ hpos1
  rcases hc : consensus params.proof_of_stake st.stakes
      (if params.proof_of_stake = PoS.GINI_STABILIZED then st.t else -1) rng2 with e | ⟨v, rng3⟩
  · rw [hc] at hok
    simp at hok
  · rw [hc] at hok
    dsimp only at hok
    have hpos3 : ∀ x ∈ rng3.floats, 0 < x := by
      rcases consensus_floats _ _ _ _ _ _ hc with h3 | h3
      · rw [h3]; exact hpos2
      · rw [h3]; exact htailpos _ hpos2
    split at hok
    · rcases hf4 : nextFloat rng3 with ⟨fd, rng4⟩
      rw [hf4] at hok
      dsimp only at hok
      have hpos4 : ∀ x ∈ rng4.floats, 0 < x := by
        have : rng4.floats = rng3.floats.tail := by rw [← nextFloat_floats rng3, hf4]
        rw [this]
        exact htailpos _ hpos3
      split at hok <;>
      · simp only [Except.ok.injEq, Prod.mk.injEq] at hok
        obtain ⟨ho, hst⟩ := hok
        rw [← hst, ← ho]
        exact ⟨by simp, by simp, hpos4⟩
    · simp only [Except.ok.injEq, Prod.mk.injEq] at hok
      obtain ⟨ho, hst⟩ := hok
      rw [← hst, ← ho]
      exact ⟨by simp, by simp, hpos3⟩

theorem simLoop_const_peers (params : Parameters) (pc : ℝ)
    (hj : params.p_join = 0) (hl : params.p_leave = 0)
    (hs : params.scheduled_joins = none) :
    ∀ (rem i : ℕ) (st : SimState) (g : List ℝ) (n : List ℕ) (nc : List ℕ)
      (h : List ℝ) (st' : SimState),
    (∀ x ∈ st.rng.floats, 0 < x) →
    simLoop params pc i rem st = .ok ((g, n, nc, h), st') →
    n = List.replicate rem st.stakes.length := by
  intro rem
  induction rem with
  | zero =>
    intro i st g n nc h st' hpos hok
    rw [simLoop] at hok
    simp only [Except.ok.injEq, Prod.mk.injEq] at hok
    rw [← hok.1.2.1]
    rfl
  | succ rem ih =>
    intro i st g n nc h st' hpos hok
    rw [simLoop] at hok
    rcases he : epochStep params pc i st with e | ⟨⟨g0, n0, nc0, h0⟩, st1⟩
    · rw [he] at hok
      simp at hok
    · rw [he] at hok
      dsimp only at hok
      rcases hr : simLoop params pc (i + 1) rem st1 with e | ⟨⟨gh, nh, nch, hh⟩, st2⟩
      · rw [hr] at hok
        simp at hok
      · rw [hr] at hok
        dsimp only at hok
        simp only [Except.ok.injEq, Prod.mk.injEq] at hok
        obtain ⟨hlen, hout, hpos1⟩ :=
          epochStep_const_peers params pc i st (g0, n0, nc0, h0) st1 hj hl hs hpos he
        have hrec := ih (i + 1) st1 gh nh nch hh st2 hpos1 hr
        rw [← hok.1.2.1, hrec, hlen]
        simp only [hout] at *
        rw [List.replicate_succ]
        simp [hout]

/-- C7 (amended): with `p_join = 0`, `p_leave = 0` and no scheduled joins,
and every consumed `random.random()` draw positive (the churn tests use
`draw ≤ p`, so a draw of exactly 0 still triggers a join), whenever
`simulate` returns normally its peer-count history is constant, equal to the
initial peer count, in every one of its `n_epochs` entries. -/
theorem peer_count_constant_no_churn (stakes : List ℝ) (corrupted : List ℕ)
    (params : Parameters) (rng : Rng) (hv : params.Valid)
    (hj : params.p_join = 0) (hl : params.p_leave = 0)
    (hs : params.scheduled_joins = none)
    (hpos : ∀ x ∈ rng.floats, 0 < x)
    (g : List ℝ) (n : List ℕ) (nc : List ℕ) (h : List ℝ)
    (hok : simulate stakes corrupted params rng = .ok (g, n, nc, h)) :
    n = List.replicate params.n_epochs stakes.length := by
  rcases hm : simulateFull stakes corrupted params rng with e | ⟨⟨gh, nh, nch, hh⟩, st⟩
  · rw [simulate, hm] at hok
    simp [Except.map] at hok
  · rw [simulate, hm] at hok
    simp only [Except.map, Except.ok.injEq, Prod.mk.injEq] at hok
    rw [simulateFull] at hm
    have := simLoop_const_peers params _ hj hl hs params.n_epochs 0 _ gh nh nch hh st hpos hm
    rw [← hok.2.1, this]

/-! ### Concrete runs, witnesses, counterexamples -/

theorem paramsA_valid : paramsA.Valid := by
  norm_num [Parameters.Valid, paramsA]

theorem simulateFullA_eval :
    simulateFull [1] [] paramsA ⟨[1, 1], [0]⟩ =
      .ok (([0], [1], [1], [1]), ⟨[11], [], 1.5, ⟨[], []⟩⟩) := by
  norm_num [simulateFull, simLoop, epochStep, try_to_join, joinLoop,
    try_to_leave, consensus, random_consensus, randint, nextInt, nextFloat,
    scheduledFor, gini, nakamoto_coefficient, HHI_coefficient, ncLoop,
    cumsum, cumsumFrom, d, paramsA, List.insertionSort, List.orderedInsert]
  intro h
  exact absurd h (by decide)

theorem simulateA_eval :
    simulate [1] [] paramsA ⟨[1, 1], [0]⟩ = .ok ([0], [1], [1], [1]) := by
  rw [simulate, simulateFullA_eval]
  rfl

/-- C1 witness: the length theorem applies to the concrete one-epoch run of
`paramsA` from the stake vector `[1]`. -/
theorem simulate_ok_four_histories_length_witness :
    ([0] : List ℝ).length = paramsA.n_epochs ∧
    ([1] : List ℕ).length = paramsA.n_epochs ∧
    ([1] : List ℕ).length = paramsA.n_epochs ∧
    ([1] : List ℝ).length = paramsA.n_epochs :=
  simulate_ok_four_histories_length [1] [] paramsA ⟨[1, 1], [0]⟩ paramsA_valid
    (by simp) (by simp) [0] [1] [1] [1] simulateA_eval

/-- C1 counterexample: with valid parameters (`p_leave = 1`), a non-empty
initial stake vector and valid corrupted positions, there is a draw sequence
under which the single peer leaves and `simulate` then signals the
empty-stake-vector error instead of returning four histories. -/
theorem simulate_raises_on_emptied_stakes_cex :
    paramsB.Valid ∧ ([1] : List ℝ) ≠ [] ∧
    (∀ i ∈ ([] : List ℕ), i < ([1] : List ℝ).length) ∧
    simulate [1] [] paramsB ⟨[1, 0.5], [0]⟩ = .error "Peers list cannot be empty" := by
  refine ⟨by norm_num [Parameters.Valid, paramsB, paramsA], by simp, by simp, ?_⟩
  norm_num [simulate, simulateFull, simLoop, epochStep, try_to_join, joinLoop,
    try_to_leave, consensus, weighted_consensus, randint, nextInt, nextFloat,
    scheduledFor, gini, nakamoto_coefficient, HHI_coefficient, ncLoop,
    cumsum, cumsumFrom, d, paramsB, paramsA, Except.map,
    List.insertionSort, List.orderedInsert]

/-- C3 witness: the deep-copy theorem applies to the concrete run of
`paramsA` on `heapA`: the caller's objects at references 0 are unchanged. -/
theorem simulate_preserves_caller_objects_witness :
    heapA'.stakesH 0 = heapA.stakesH 0 ∧ heapA'.corrH 0 = heapA.corrH 0 :=
  simulate_preserves_caller_objects 0 0 heapA paramsA ⟨[1, 1], [0]⟩
    (by norm_num [heapA]) (by norm_num [heapA]) ([0], [1], [1], [1]) heapA'
    (by rw [simulateOp]
        rw [show heapA.stakesH 0 = [1] from rfl, show heapA.corrH 0 = [] from rfl,
          simulateFullA_eval]
        rfl)

/-- C3 counterexample: on the concrete run of `paramsA` from the caller's
object `[1]`, the caller's stake-vector reference still holds the pre-run
value `[1]` after the run, while the end-of-run stake vector is `[11]`: the
caller's object does not reflect the end-of-run state. -/
theorem simulate_caller_keeps_prerun_values_cex :
    (simulateOp 0 0 heapA paramsA ⟨[1, 1], [0]⟩).toOption.map
      (fun r => (r.2.stakesH 0, r.2.stakesH 1)) = some ([1], [11]) ∧
    ([1] : List ℝ) ≠ [11] := by
  constructor
  · rw [simulateOp]
    rw [show heapA.stakesH 0 = [1] from rfl, show heapA.corrH 0 = [] from rfl,
      simulateFullA_eval]
    simp [Except.toOption, heapA, Function.update]
  · simp

/-- C7 witness: the constant-peer-count theorem applies to the concrete
no-churn run of `paramsA` with positive draws. -/
theorem peer_count_constant_no_churn_witness :
    ([1] : List ℕ) = List.replicate paramsA.n_epochs ([(1 : ℝ)]).length :=
  peer_count_constant_no_churn [1] [] paramsA ⟨[1, 1], [0]⟩ paramsA_valid
    rfl rfl rfl (by norm_num) [0] [1] [1] [1] simulateA_eval

/-- C7 counterexample: with `p_join = 0`, `p_leave = 0` and no scheduled
joins, a draw of exactly 0 at the join test (`random.random() <= p_join`)
still triggers a join, so the peer-count history `[2]` of this run is not
constantly equal to the initial peer count 1. -/
theorem join_on_zero_draw_cex :
    paramsA.Valid ∧ paramsA.p_join = 0 ∧ paramsA.p_leave = 0 ∧
    paramsA.scheduled_joins = none ∧
    simulate [1] [] paramsA ⟨[0, 1, 1, 1], [0]⟩ =
      .ok ([0], [2], [2], [1 / 2]) ∧
    ([2] : List ℕ) ≠ List.replicate paramsA.n_epochs ([(1 : ℝ)]).length := by
  refine ⟨paramsA_valid, rfl, rfl, rfl, ?_, by simp [paramsA]⟩
  norm_num [simulate, simulateFull, simLoop, epochStep, try_to_join, joinLoop,
    new_stake_of, try_to_leave, consensus, random_consensus, randint, nextInt,
    nextFloat, scheduledFor, gini, nakamoto_coefficient, HHI_coefficient,
    ncLoop, cumsum, cumsumFrom, d, paramsA, Except.map,
    List.insertionSort, List.orderedInsert]

/-- C8 witness: the corrupted-growth theorem applies to the concrete run of
`paramsA`, whose final corrupted list `[]` extends the initial `[]`. -/
theorem corrupted_set_only_grows_witness :
    ∃ l, (⟨[11], [], 1.5, ⟨[], []⟩⟩ : SimState).corrupted = [] ++ l :=
  corrupted_set_only_grows [1] [] paramsA ⟨[1, 1], [0]⟩ (([0], [1], [1], [1]))
    ⟨[11], [], 1.5, ⟨[], []⟩⟩ simulateFullA_eval
